import Mathlib

/-!
Shallow embedding of the UniHaven availability-slot subsystem
(src/unihaven/core/models.py, serializers.py, views.py).

Dates are modelled as `Int` (days since an arbitrary epoch); `timedelta(days=1)`
is `1`.  A single accommodation's database state is a `St`: its cached
`is_available` flag, its `min_reservation_days`, the ids of its associated
universities, its availability slots (with primary keys `id`, modelling Django
autoincrement via `nextId`), and its reservations.  `order_by('start_date')`
is modelled as a stable insertion sort on `start_date`; `objects.create`
appends a row with the next fresh id.  The Django `save`/`delete` hooks of
`AvailabilitySlot` (which call `Accommodation.update_availability_status`)
are inlined exactly where the source triggers them.
-/

/-- An `AvailabilitySlot` row (models.py, class AvailabilitySlot). -/
structure Slot where
  id : Nat
  start_date : Int
  end_date : Int
  is_available : Bool
deriving DecidableEq, Repr

/-- Reservation status choices (models.py, Reservation.STATUS_CHOICES). -/
inductive RStatus where
  | PENDING
  | CONFIRMED
  | CANCELLED
  | COMPLETED
deriving DecidableEq, Repr

/-- A `Reservation` row (models.py, class Reservation); the accommodation and
member foreign keys are implicit (we model one accommodation). -/
structure Reservation where
  id : Nat
  reserved_from : Int
  reserved_to : Int
  status : RStatus
deriving DecidableEq, Repr

/-- The database state of one accommodation: its cached availability flag,
minimum reservation days, associated university ids, slot rows, reservation
rows, and the autoincrement counter for new slot / reservation ids. -/
structure St where
  is_available : Bool
  min_reservation_days : Nat
  universities : List Nat
  slots : List Slot
  reservations : List Reservation
  nextId : Nat
deriving DecidableEq, Repr

/-- `accommodation.availability_slots.filter(is_available=True).order_by('start_date')`:
the available slots sorted (stably) by start date. -/
def availSorted (slots : List Slot) : List Slot :=
  (slots.filter (·.is_available)).insertionSort (fun a b => a.start_date ≤ b.start_date)

/-- `Accommodation.update_availability_status` (models.py:231-238): recompute
the flag from the slot rows; write it only when it changed.  The returned
`Bool` records whether a write was performed. -/
def update_availability_status (st : St) : St × Bool :=
  let has_available_slots := st.slots.any (·.is_available)
  if st.is_available ≠ has_available_slots then
    ({ st with is_available := has_available_slots }, true)
  else
    (st, false)

/-- `AvailabilitySlot.objects.create(...)` followed by the overridden
`save` hook (models.py:309-313): append the new row, then, when the new slot
is available, refresh the accommodation's flag. -/
def slotCreate (st : St) (s e : Int) (avail : Bool) : St × Slot :=
  let slot : Slot := ⟨st.nextId, s, e, avail⟩
  let st' : St := { st with slots := st.slots ++ [slot], nextId := st.nextId + 1 }
  if avail then ((update_availability_status st').1, slot) else (st', slot)

/-- `slot.delete()` with its overridden hook (models.py:315-319): remove the
row, then refresh the accommodation's flag. -/
def slotDelete (st : St) (sid : Nat) : St :=
  (update_availability_status { st with slots := st.slots.filter (·.id ≠ sid) }).1

/-- `current.end_date = e; current.save()` inside the merge loop
(models.py:339-340): update the row's end date; the save hook refreshes the
flag when the saved slot is available. -/
def slotSetEnd (st : St) (sid : Nat) (e : Int) (avail : Bool) : St :=
  let st' : St := { st with
    slots := st.slots.map (fun s => if s.id = sid then { s with end_date := e } else s) }
  if avail then (update_availability_status st').1 else st'

/-- `AvailabilitySlot.split_slot(self, start_date, end_date)`
(models.py:274-307): create a `before` residual when the reservation starts
strictly after the slot, an `after` residual when it ends strictly before;
the original slot is NOT deleted here (the caller does that). -/
def split_slot (st : St) (slot : Slot) (start_date end_date : Int) :
    St × Option Slot × Option Slot :=
  let (st1, before_slot) :=
    if start_date > slot.start_date then
      let (st', b) := slotCreate st slot.start_date (start_date - 1) true
      (st', some b)
    else (st, none)
  let (st2, after_slot) :=
    if end_date < slot.end_date then
      let (st', a) := slotCreate st1 (end_date + 1) slot.end_date true
      (st', some a)
    else (st1, none)
  (st2, before_slot, after_slot)

/-- The body of the `while` loop of
`AvailabilitySlot.merge_adjacent_slots` (models.py:331-346), with explicit
fuel.  Each iteration re-reads the sorted available slots (the querysets are
re-evaluated on every access); when `slots[i]` and `slots[i+1]` are
day-adjacent it merges them (grow `current`, delete `next`) keeping `i`,
otherwise it increments `i`. -/
def mergeLoop (st : St) : Nat → Nat → St
  | 0, _ => st
  | fuel + 1, i =>
    let avail := availSorted st.slots
    if h : i + 1 < avail.length then
      let current := avail.get ⟨i, Nat.lt_of_succ_lt h⟩
      let nxt := avail.get ⟨i + 1, h⟩
      if current.end_date + 1 = nxt.start_date then
        mergeLoop (slotDelete (slotSetEnd st current.id nxt.end_date current.is_available) nxt.id)
          fuel i
      else
        mergeLoop st fuel (i + 1)
    else st

/-- `AvailabilitySlot.merge_adjacent_slots(accommodation)` (models.py:321-346).
The fuel `2 * availSorted.length` dominates the loop's true measure
(each iteration either strictly shrinks the available-slot count or
increments `i`), so the loop always runs to completion (see the C10
fuel-sufficiency theorem). -/
def merge_adjacent_slots (st : St) : St :=
  let avail := availSorted st.slots
  if avail.length ≤ 1 then st
  else mergeLoop st (2 * avail.length) 0

/-- `Accommodation.is_available_for_dates` (models.py:207-229): gate on the
cached flag, then the minimum-stay check, then look for a covering available
slot. -/
def is_available_for_dates (st : St) (start_date end_date : Int) : Bool :=
  if !st.is_available then false
  else if (end_date - start_date) + 1 < (st.min_reservation_days : Int) then false
  else st.slots.any (fun s =>
    s.is_available && s.start_date ≤ start_date && end_date ≤ s.end_date)

/-- `Reservation.can_be_cancelled` (models.py:371-372). -/
def Reservation.can_be_cancelled (r : Reservation) : Bool :=
  r.status = RStatus.PENDING

/-- `Reservation.is_cancelled` (models.py:374-375). -/
def Reservation.is_cancelled (r : Reservation) : Bool :=
  r.status = RStatus.CANCELLED

/-- `Reservation.cancel` (models.py:377-401): refuse when already cancelled
or not cancellable; otherwise mark CANCELLED, hand the reserved range back
as a fresh available slot, and merge adjacent slots.  Returns the new state,
the (possibly updated) reservation row, and the success flag. -/
def Reservation.cancel (st : St) (r : Reservation) : St × Reservation × Bool :=
  if r.is_cancelled then (st, r, false)
  else if r.can_be_cancelled then
    let r' : Reservation := { r with status := RStatus.CANCELLED }
    let (st1, _) := slotCreate st r.reserved_from r.reserved_to true
    let st2 := merge_adjacent_slots st1
    (st2, r', true)
  else (st, r, false)

/-- The overlapping-reservation query of `ReservationSerializer.validate`
(serializers.py:225-230): a PENDING/CONFIRMED reservation of the same
accommodation with `reserved_from < new_to` and `reserved_to > new_from`
(on creation, `exclude(id=None)` excludes nothing). -/
def overlapsReservation (rf rt : Int) (r : Reservation) : Bool :=
  (r.status = RStatus.PENDING || r.status = RStatus.CONFIRMED)
    && r.reserved_from < rt && rf < r.reserved_to

/-- `ReservationSerializer.validate` on the creation path (`instance is None`;
serializers.py:187-235), with the checks in source order.  `today` is
`timezone.now().date()` and `member_univ` the requesting member's university
id. -/
def ReservationSerializer.validate (today : Int) (member_univ : Nat) (st : St)
    (rf rt : Int) : Except String Unit :=
  if !(st.universities.contains member_univ) then
    .error "You can only reserve accommodations associated with your university"
  else if rf > rt then
    .error "End date must be after start date"
  else if rf < today then
    .error "Reservation start date cannot be in the past"
  else if (rt - rf) + 1 < (st.min_reservation_days : Int) then
    .error "Reservation must be at least min_reservation_days days"
  else if !(is_available_for_dates st rf rt) then
    .error "The accommodation is not available for the requested dates"
  else if st.reservations.any (overlapsReservation rf rt) then
    .error "The accommodation is already reserved for the selected dates"
  else .ok ()

/-- The covering-slot query of the reserve endpoint (views.py:228-233):
the first available slot whose range contains `[rf, rt]`. -/
def findCoveringSlot (slots : List Slot) (rf rt : Int) : Option Slot :=
  slots.find? (fun s => s.is_available && s.start_date ≤ rf && rt ≤ s.end_date)

/-- `AccommodationViewSet.reserve` (views.py:170-266): gate on the cached
flag, the university association, and `is_available_for_dates`; run the
serializer's validation; locate a covering available slot, split it, delete
the original, persist a PENDING reservation, and refresh the availability
flag.  Every failure returns the state unchanged together with the error. -/
def reserveView (today : Int) (member_univ : Nat) (st : St) (rf rt : Int) :
    St × Except String Reservation :=
  if !st.is_available then
    (st, .error "Accommodation not available")
  else if !(st.universities.contains member_univ) then
    (st, .error "You can only reserve accommodations associated with your university")
  else if !(is_available_for_dates st rf rt) then
    (st, .error "The accommodation is not available for the requested dates")
  else
    match ReservationSerializer.validate today member_univ st rf rt with
    | .error e => (st, .error e)
    | .ok _ =>
      match findCoveringSlot st.slots rf rt with
      | none => (st, .error "No available slot found for these dates")
      | some slot =>
        let (st1, _, _) := split_slot st slot rf rt
        let st2 := slotDelete st1 slot.id
        let res : Reservation := ⟨st2.nextId, rf, rt, RStatus.PENDING⟩
        let st3 : St := { st2 with
          reservations := st2.reservations ++ [res], nextId := st2.nextId + 1 }
        ((update_availability_status st3).1, .ok res)

/-! ## Concrete states used by witnesses -/

/-- A small concrete accommodation state: available, min stay 1 day,
university 1 associated, one available slot `[0, 29]` (id 7), no
reservations. -/
def stW : St := ⟨true, 1, [1], [⟨7, 0, 29, true⟩], [], 100⟩

/-- The slot `[0, 29]` of `stW`. -/
def slotW : Slot := ⟨7, 0, 29, true⟩

/-- C1: for an available slot covering the reservation range, `split_slot`
returns a before-residual `[slot.start_date, rf - 1]` (available) exactly when
`rf > slot.start_date`, an after-residual `[rt + 1, slot.end_date]` (available)
exactly when `rt < slot.end_date`, `(none, none)` when the reservation equals
the slot's bounds on both ends, and the residual ranges together with
`[rf, rt]` cover exactly `[slot.start_date, slot.end_date]`. -/
theorem C1_split_slot (st : St) (slot : Slot) (rf rt : Int)
    (_hA : slot.is_available = true)
    (h1 : slot.start_date ≤ rf) (h2 : rf ≤ rt) (h3 : rt ≤ slot.end_date) :
    (∀ b, (split_slot st slot rf rt).2.1 = some b →
      b.start_date = slot.start_date ∧ b.end_date = rf - 1 ∧ b.is_available = true) ∧
    ((split_slot st slot rf rt).2.1 = none ↔ ¬ slot.start_date < rf) ∧
    (∀ a, (split_slot st slot rf rt).2.2 = some a →
      a.start_date = rt + 1 ∧ a.end_date = slot.end_date ∧ a.is_available = true) ∧
    ((split_slot st slot rf rt).2.2 = none ↔ ¬ rt < slot.end_date) ∧
    (rf = slot.start_date → rt = slot.end_date →
      (split_slot st slot rf rt).2 = (none, none)) ∧
    (∀ d : Int, (slot.start_date ≤ d ∧ d ≤ slot.end_date) ↔
      ((∃ b, (split_slot st slot rf rt).2.1 = some b ∧ b.start_date ≤ d ∧ d ≤ b.end_date) ∨
       (rf ≤ d ∧ d ≤ rt) ∨
       (∃ a, (split_slot st slot rf rt).2.2 = some a ∧ a.start_date ≤ d ∧ d ≤ a.end_date))) := by
  by_cases hb : slot.start_date < rf <;> by_cases ha : rt < slot.end_date <;>
    simp [split_slot, slotCreate, hb, ha, not_lt] <;>
    first
      | (constructor <;> intro d <;> omega)
      | (intro d; omega)

/-- Witness for C1 at `stW`'s slot `[0, 29]`, reserving `[10, 19]`. -/
theorem C1_split_slot_witness :
    ((split_slot stW slotW 10 19).2.1 = none ↔ ¬ (0:Int) < 10) ∧
    ((split_slot stW slotW 10 19).2.2 = none ↔ ¬ (19:Int) < 29) := by
  have h := C1_split_slot stW slotW 10 19 rfl (by decide) (by decide) (by decide)
  exact ⟨h.2.1, h.2.2.2.1⟩

/-- C4: `update_availability_status` stores `true` exactly when some slot of
the accommodation is available, and writes only when the recomputed value
differs from the stored flag. -/
theorem C4_update_availability_status (st : St) :
    ((update_availability_status st).1.is_available = true ↔
      ∃ s ∈ st.slots, s.is_available = true) ∧
    ((update_availability_status st).1.slots = st.slots) ∧
    ((update_availability_status st).2 = false ↔
      st.is_available = st.slots.any (·.is_available)) := by
  unfold update_availability_status
  by_cases h : st.is_available = st.slots.any (·.is_available) <;>
    simp [h, List.any_eq_true]

/-- C5: `Reservation.cancel` succeeds exactly from PENDING; on any
non-PENDING reservation (in particular an already-CANCELLED one) it returns
`false` and changes nothing: state, slots, flag and reservation row are
returned untouched. -/
theorem C5_cancel (st : St) (r : Reservation) :
    ((Reservation.cancel st r).2.2 = true ↔ r.status = RStatus.PENDING) ∧
    (r.status ≠ RStatus.PENDING → Reservation.cancel st r = (st, r, false)) := by
  rcases r with ⟨id, f, t, status⟩
  cases status <;>
    simp [Reservation.cancel, Reservation.is_cancelled, Reservation.can_be_cancelled]

/-- Witness for C5: cancelling an already-CANCELLED reservation on `stW`
is refused with no mutation. -/
theorem C5_cancel_witness :
    Reservation.cancel stW ⟨3, 10, 19, RStatus.CANCELLED⟩ =
      (stW, ⟨3, 10, 19, RStatus.CANCELLED⟩, false) :=
  (C5_cancel stW ⟨3, 10, 19, RStatus.CANCELLED⟩).2 (by decide)

/-- C9: when the cached `is_available` flag is false,
`is_available_for_dates` is false for every requested range (the flag is
checked before any slot is consulted), and the reserve endpoint rejects
every attempt, leaving the state unchanged. -/
theorem C9_unavailable_flag_gates (st : St) (today rf rt : Int) (mu : Nat)
    (h : st.is_available = false) :
    is_available_for_dates st rf rt = false ∧
    reserveView today mu st rf rt = (st, .error "Accommodation not available") := by
  constructor
  · simp [is_available_for_dates, h]
  · simp [reserveView, h]

/-- Witness for C9: `stW` with the flag forced to false still holds an
available covering slot `[0, 29]`, yet dates `[10, 19]` are reported
unavailable and the reserve endpoint rejects. -/
theorem C9_unavailable_flag_gates_witness :
    is_available_for_dates { stW with is_available := false } 10 19 = false ∧
    reserveView 0 1 { stW with is_available := false } 10 19 =
      ({ stW with is_available := false }, .error "Accommodation not available") :=
  C9_unavailable_flag_gates { stW with is_available := false } 0 10 19 1 rfl
/-- If the serializer's creation-path validation succeeds, every check it
performs passed. -/
theorem validate_ok_facts (today : Int) (mu : Nat) (st : St) (rf rt : Int)
    (h : ReservationSerializer.validate today mu st rf rt = .ok ()) :
    st.universities.contains mu = true ∧ rf ≤ rt ∧ today ≤ rf ∧
    (st.min_reservation_days : Int) ≤ (rt - rf) + 1 ∧
    is_available_for_dates st rf rt = true ∧
    st.reservations.any (overlapsReservation rf rt) = false := by
  unfold ReservationSerializer.validate at h
  split_ifs at h with h1 h2 h3 h4 h5 h6
  all_goals simp_all [not_lt]

/-- C6: any of the four range/association validations failing makes the
reserve endpoint return an error with the state unchanged: the checks run
before any slot or reservation row is created, modified or deleted. -/
theorem C6_validation_aborts (today : Int) (mu : Nat) (st : St) (rf rt : Int)
    (h : rf > rt ∨ (rt - rf) + 1 < (st.min_reservation_days : Int) ∨
         rf < today ∨ st.universities.contains mu = false) :
    (reserveView today mu st rf rt).1 = st ∧
    ∃ e, (reserveView today mu st rf rt).2 = Except.error e := by
  unfold reserveView
  split_ifs with h1 h2 h3
  · exact ⟨rfl, _, rfl⟩
  · exact ⟨rfl, _, rfl⟩
  · exact ⟨rfl, _, rfl⟩
  · rcases hv : ReservationSerializer.validate today mu st rf rt with e | u
    · simp [hv]
    · exfalso
      obtain ⟨hu, ho, hp, hm, _, _⟩ := validate_ok_facts today mu st rf rt (by cases u; exact hv)
      rcases h with h | h | h | h
      · omega
      · omega
      · omega
      · rw [h] at hu; exact Bool.false_ne_true hu

/-- C7: once the range validations pass, the serializer rejects exactly when
some PENDING/CONFIRMED reservation satisfies the half-open overlap test
`existing.reserved_from < new_to` and `existing.reserved_to > new_from`;
reservations touching the new range only at a shared boundary day never
trigger the rejection. -/
theorem C7_overlap_conflict (today : Int) (mu : Nat) (st : St) (rf rt : Int)
    (huniv : st.universities.contains mu = true)
    (hord : rf ≤ rt) (hpast : today ≤ rf)
    (hmin : (st.min_reservation_days : Int) ≤ (rt - rf) + 1)
    (hiafd : is_available_for_dates st rf rt = true) :
    (ReservationSerializer.validate today mu st rf rt =
        .error "The accommodation is already reserved for the selected dates" ↔
      ∃ r ∈ st.reservations,
        (r.status = RStatus.PENDING ∨ r.status = RStatus.CONFIRMED) ∧
        r.reserved_from < rt ∧ rf < r.reserved_to) ∧
    ((∀ r ∈ st.reservations,
        (r.status = RStatus.PENDING ∨ r.status = RStatus.CONFIRMED) →
        r.reserved_to ≤ rf ∨ rt ≤ r.reserved_from) →
      ReservationSerializer.validate today mu st rf rt = .ok ()) := by
  have hiff : st.reservations.any (overlapsReservation rf rt) = true ↔
      ∃ r ∈ st.reservations,
        (r.status = RStatus.PENDING ∨ r.status = RStatus.CONFIRMED) ∧
        r.reserved_from < rt ∧ rf < r.reserved_to := by
    simp only [List.any_eq_true, overlapsReservation, Bool.and_eq_true,
      Bool.or_eq_true, decide_eq_true_eq]
    constructor
    · rintro ⟨r, hr, ⟨hs, h1⟩, h2⟩; exact ⟨r, hr, hs, h1, h2⟩
    · rintro ⟨r, hr, hs, h1, h2⟩; exact ⟨r, hr, ⟨hs, h1⟩, h2⟩
  unfold ReservationSerializer.validate
  rw [if_neg (by simpa using huniv), if_neg (by omega), if_neg (by omega),
    if_neg (by omega), if_neg (by simp [hiafd])]
  constructor
  · by_cases hov : st.reservations.any (overlapsReservation rf rt) = true
    · rw [if_pos hov]
      exact ⟨fun _ => hiff.mp hov, fun _ => rfl⟩
    · rw [if_neg hov]
      constructor
      · intro h; exact absurd h (by simp)
      · intro hex; exact absurd (hiff.mpr hex) hov
  · intro hb
    rw [if_neg]
    intro hov
    obtain ⟨r, hr, hs, h1, h2⟩ := hiff.mp hov
    have := hb r hr hs
    omega

/-- Witness for C6: requesting `[19, 10]` (reversed range) on `stW` leaves
the state unchanged. -/
theorem C6_validation_aborts_witness :
    (reserveView 0 1 stW 19 10).1 = stW :=
  (C6_validation_aborts 0 1 stW 19 10 (Or.inl (by decide))).1

/-- Witness for C7: on `stW` (no existing reservations) a valid request
`[10, 19]` passes the conflict check. -/
theorem C7_overlap_conflict_witness :
    ReservationSerializer.validate 0 1 stW 10 19 = .ok () :=
  (C7_overlap_conflict 0 1 stW 10 19 rfl (by decide) (by decide) (by decide)
    (by decide)).2 (by intro r hr; cases hr)

/-- One-step unfolding of the merge loop at positive fuel. -/
theorem mergeLoop_succ (st : St) (fuel i : Nat) :
    mergeLoop st (fuel + 1) i =
      if h : i + 1 < (availSorted st.slots).length then
        let current := (availSorted st.slots).get ⟨i, Nat.lt_of_succ_lt h⟩
        let nxt := (availSorted st.slots).get ⟨i + 1, h⟩
        if current.end_date + 1 = nxt.start_date then
          mergeLoop
            (slotDelete (slotSetEnd st current.id nxt.end_date current.is_available) nxt.id)
            fuel i
        else mergeLoop st fuel (i + 1)
      else st := rfl

/-- Refreshing the availability flag never touches the slot rows. -/
theorem update_slots_frame (st : St) :
    (update_availability_status st).1.slots = st.slots := by
  simp only [update_availability_status]
  split <;> rfl

/-- Refreshing the availability flag never touches the other fields. -/
theorem update_fields_frame (st : St) :
    (update_availability_status st).1.nextId = st.nextId ∧
    (update_availability_status st).1.reservations = st.reservations ∧
    (update_availability_status st).1.min_reservation_days = st.min_reservation_days ∧
    (update_availability_status st).1.universities = st.universities := by
  simp only [update_availability_status]
  split <;> exact ⟨rfl, rfl, rfl, rfl⟩

/-- The slot rows after a delete. -/
theorem slotDelete_slots (st : St) (sid : Nat) :
    (slotDelete st sid).slots = st.slots.filter (fun s => s.id ≠ sid) := by
  simp [slotDelete, update_slots_frame]

/-- The slot rows after an end-date update. -/
theorem slotSetEnd_slots (st : St) (sid : Nat) (e : Int) (av : Bool) :
    (slotSetEnd st sid e av).slots =
      st.slots.map (fun s => if s.id = sid then { s with end_date := e } else s) := by
  unfold slotSetEnd; split
  · rw [update_slots_frame]
  · rfl

/-- The slot rows after a create. -/
theorem slotCreate_slots (st : St) (s e : Int) (av : Bool) :
    (slotCreate st s e av).1.slots = st.slots ++ [⟨st.nextId, s, e, av⟩] := by
  unfold slotCreate; split
  · rw [update_slots_frame]
  · rfl

/-- Filtering by a conjunction yields at most as many elements as filtering
by one conjunct. -/
theorem length_filter_and_le (p q : Slot → Bool) (l : List Slot) :
    (l.filter (fun a => p a && q a)).length ≤ (l.filter p).length := by
  induction l with
  | nil => simp
  | cons a t IH => by_cases hp : p a <;> by_cases hq : q a <;> simp [hp, hq] <;> omega

/-- Filtering by a conjunction drops strictly below when some element
satisfies the first conjunct but not the second. -/
theorem length_filter_and_lt (p q : Slot → Bool) (l : List Slot) (x : Slot)
    (hx : x ∈ l) (hp : p x = true) (hq : q x = false) :
    (l.filter (fun a => p a && q a)).length < (l.filter p).length := by
  induction l with
  | nil => cases hx
  | cons a t IH =>
    rcases List.mem_cons.mp hx with rfl | hx'
    · have h1 := length_filter_and_le p q t
      simp [hp, hq]
      omega
    · by_cases hpa : p a <;> by_cases hqa : q a <;>
        simp [hpa, hqa] <;> have := IH hx' <;> omega

/-- Mapping by an availability-preserving function preserves the number of
available slots. -/
theorem length_filter_map_preserve (f : Slot → Slot) (l : List Slot)
    (hf : ∀ x, (f x).is_available = x.is_available) :
    ((l.map f).filter (·.is_available)).length = (l.filter (·.is_available)).length := by
  induction l with
  | nil => simp
  | cons a t IH => by_cases ha : a.is_available <;> simp [hf, ha, IH]

/-- The sorted available view has as many slots as the availability filter. -/
theorem availSorted_length (slots : List Slot) :
    (availSorted slots).length = (slots.filter (·.is_available)).length :=
  List.length_insertionSort _ _

/-- A merge step (grow `current`, delete `next`) strictly decreases the
number of available slots. -/
theorem mergeStep_avail_lt (st : St) (cid : Nat) (e : Int) (av : Bool) (nxt : Slot)
    (hmem : nxt ∈ availSorted st.slots) :
    (availSorted (slotDelete (slotSetEnd st cid e av) nxt.id).slots).length <
      (availSorted st.slots).length := by
  have hmem' : nxt ∈ st.slots.filter (·.is_available) := by
    simpa [availSorted] using (List.mem_insertionSort _).mp hmem
  have hnx : nxt ∈ st.slots := (List.mem_filter.mp hmem').1
  have hav : nxt.is_available = true := by
    simpa using (List.mem_filter.mp hmem').2
  rw [availSorted_length, availSorted_length, slotDelete_slots, slotSetEnd_slots,
    List.filter_filter]
  set f : Slot → Slot := fun s => if s.id = cid then { s with end_date := e } else s with hf
  have hpres : ∀ x, (f x).is_available = x.is_available := by
    intro x; simp only [hf]; split <;> rfl
  have hid : ∀ x : Slot, (f x).id = x.id := by
    intro x; simp only [hf]; split <;> rfl
  calc ((st.slots.map f).filter
          (fun a => a.is_available && decide (a.id ≠ nxt.id))).length
      < ((st.slots.map f).filter (·.is_available)).length := by
        apply length_filter_and_lt _ _ _ (f nxt) (List.mem_map_of_mem f hnx)
        · rw [hpres]; exact hav
        · simp [hid]
    _ = (st.slots.filter (·.is_available)).length :=
        length_filter_map_preserve f st.slots hpres

/-- C10: the merge loop terminates: whenever the fuel covers the loop's
measure `2 * availableCount - i` (each iteration either merges a pair,
strictly decreasing the available-slot count, or increments the scan index),
supplying one more unit of fuel changes nothing — the loop has already
exited. -/
theorem C10_mergeLoop_terminates (fuel : Nat) (st : St) (i : Nat)
    (h : 2 * (availSorted st.slots).length ≤ fuel + i) :
    mergeLoop st (fuel + 1) i = mergeLoop st fuel i := by
  induction fuel generalizing st i with
  | zero =>
    rw [mergeLoop_succ]
    split
    · next hc => omega
    · rfl
  | succ f IH =>
    conv_lhs => rw [mergeLoop_succ]
    conv_rhs => rw [mergeLoop_succ]
    by_cases hc : i + 1 < (availSorted st.slots).length
    · rw [dif_pos hc, dif_pos hc]
      dsimp only
      by_cases hadj :
          ((availSorted st.slots).get ⟨i, Nat.lt_of_succ_lt hc⟩).end_date + 1 =
            ((availSorted st.slots).get ⟨i + 1, hc⟩).start_date
      · rw [if_pos hadj, if_pos hadj]
        apply IH
        have hlt := mergeStep_avail_lt st
          ((availSorted st.slots).get ⟨i, Nat.lt_of_succ_lt hc⟩).id
          ((availSorted st.slots).get ⟨i + 1, hc⟩).end_date
          ((availSorted st.slots).get ⟨i, Nat.lt_of_succ_lt hc⟩).is_available
          ((availSorted st.slots).get ⟨i + 1, hc⟩)
          (List.get_mem _ _ _)
        omega
      · rw [if_neg hadj, if_neg hadj]
        apply IH
        omega
    · rw [dif_neg hc, dif_neg hc]

/-- Witness for C10 on `stW` (one available slot): with the measure already
covered, extra fuel is irrelevant. -/
theorem C10_mergeLoop_terminates_witness :
    mergeLoop stW 3 0 = mergeLoop stW 2 0 :=
  C10_mergeLoop_terminates 2 stW 0 (by decide)

/-- When the slot rows are all available and already sorted by start date,
the sorted available view is the row list itself. -/
theorem availSorted_eq_self (slots : List Slot)
    (hav : ∀ s ∈ slots, s.is_available = true)
    (hsort : List.Pairwise (fun a b : Slot => a.start_date ≤ b.start_date) slots) :
    availSorted slots = slots := by
  unfold availSorted
  rw [List.filter_eq_self.mpr (by intro a ha; simpa using hav a ha)]
  exact List.Sorted.insertionSort_eq hsort

/-- When no consecutive pair of the sorted available view is day-adjacent,
the merge loop only advances its index and returns the state unchanged. -/
theorem mergeLoop_no_adjacent (fuel : Nat) : ∀ (st : St) (i : Nat),
    List.Chain' (fun a b => a.end_date + 1 ≠ b.start_date) (availSorted st.slots) →
    mergeLoop st fuel i = st := by
  induction fuel with
  | zero => intro st i _; rfl
  | succ f IH =>
    intro st i hch
    rw [mergeLoop_succ]
    split
    · next hc =>
      rw [if_neg (List.chain'_iff_get.mp hch i (by omega))]
      exact IH st (i + 1) hch
    · rfl

/-- Row-level effect of one merge step: the first row's end date grows to
the second row's end date and the second row is deleted; rows with other
ids are untouched. -/
theorem mergeRows (s0 s1 : Slot) (rest : List Slot) (e : Int)
    (h01 : s0.id ≠ s1.id) (h0r : ∀ r ∈ rest, r.id ≠ s0.id)
    (h1r : ∀ r ∈ rest, r.id ≠ s1.id) :
    (((s0 :: s1 :: rest).map
        (fun s => if s.id = s0.id then { s with end_date := e } else s)).filter
      (fun s => s.id ≠ s1.id)) = { s0 with end_date := e } :: rest := by
  rw [List.map_cons, List.map_cons, if_pos rfl, if_neg (fun hcon => h01 hcon.symm),
    List.map_congr_left (fun r hr => if_neg (h0r r hr)), List.map_id',
    List.filter_cons, List.filter_cons]
  rw [if_pos (by simpa using fun hcon => h01 hcon), if_neg (by simp),
    List.filter_eq_self.mpr (fun r hr => by simpa using h1r r hr)]

/-- One merge step of the loop at index 0 when the first two slots of the
sorted available view are day-adjacent. -/
theorem mergeLoop_step0 (st : St) (fuel : Nat) (s0 s1 : Slot) (rest : List Slot)
    (hA : availSorted st.slots = s0 :: s1 :: rest)
    (hadj : s0.end_date + 1 = s1.start_date) :
    mergeLoop st (fuel + 1) 0 =
      mergeLoop (slotDelete (slotSetEnd st s0.id s1.end_date s0.is_available) s1.id)
        fuel 0 := by
  rw [mergeLoop_succ, hA, dif_pos (by simp)]
  dsimp only [List.get]
  rw [if_pos hadj]

/-- A chain of pairwise day-adjacent available slots (in start-date order,
with distinct row ids) collapses under the merge loop to the single slot
from the first row's start to the last row's end. -/
theorem mergeLoop_chain (n : Nat) : ∀ (st : St) (fuel : Nat) (hd lst : Slot),
    st.slots.length = n →
    st.slots.head? = some hd →
    st.slots.getLast? = some lst →
    (∀ s ∈ st.slots, s.is_available = true) →
    List.Chain' (fun a b => a.end_date + 1 = b.start_date) st.slots →
    List.Pairwise (fun a b : Slot => a.start_date ≤ b.start_date) st.slots →
    (st.slots.map (·.id)).Nodup →
    2 * n ≤ fuel →
    (mergeLoop st fuel 0).slots = [⟨hd.id, hd.start_date, lst.end_date, true⟩] := by
  induction n using Nat.strong_induction_on with
  | _ n IH =>
    intro st fuel hd lst hlen hhd hlst hav hch hsort hnd hfuel
    rcases hsl : st.slots with _ | ⟨s0, tail⟩
    · rw [hsl] at hhd; cases hhd
    rcases tail with _ | ⟨s1, rest⟩
    · -- single slot: the loop exits immediately
      rw [hsl] at hhd hlst hlen
      simp only [List.length_singleton] at hlen
      have hhd' : s0 = hd := by simpa using hhd
      subst hhd'
      obtain rfl : s0 = lst := by simpa using hlst
      have hs0eq : s0 = ⟨s0.id, s0.start_date, s0.end_date, true⟩ := by
        have h := hav s0 (by simp [hsl])
        cases s0; simp_all
      rcases hf : fuel with _ | f
      · omega
      have hA : availSorted st.slots = [s0] := by
        rw [availSorted_eq_self st.slots hav (by rw [hsl]; simp), hsl]
      rw [mergeLoop_succ, hA, dif_neg (by simp)]
      rw [hsl]
      exact congrArg (fun z => [z]) hs0eq
    · -- at least two slots: one merge step, then induction
      rw [hsl] at hhd hlst hav hch hsort hnd hlen
      simp only [List.length_cons] at hlen
      have hhd' : s0 = hd := by simpa using hhd
      subst hhd'
      -- facts from Nodup of the ids
      simp only [List.map_cons, List.nodup_cons, List.mem_cons, List.mem_map,
        not_or, not_exists, not_and] at hnd
      obtain ⟨⟨h01, h0r⟩, h1r, hndr⟩ := hnd
      -- facts from the chain and sortedness
      obtain ⟨hadj01, hch1⟩ := List.chain'_cons.mp hch
      obtain ⟨hhead1, hchrest⟩ := List.chain'_cons'.mp hch1
      obtain ⟨h0all, hsort1⟩ := List.pairwise_cons.mp hsort
      obtain ⟨h1all, hsortrest⟩ := List.pairwise_cons.mp hsort1
      have h0r' : ∀ r ∈ rest, r.id ≠ s0.id := fun r hr hcon => h0r r hr hcon
      have h1r' : ∀ r ∈ rest, r.id ≠ s1.id := fun r hr => h1r r hr
      -- the available sorted view is the row list itself
      have hA : availSorted st.slots = s0 :: s1 :: rest := by
        rw [availSorted_eq_self st.slots (by rw [hsl]; exact hav)
          (by rw [hsl]; exact hsort), hsl]
      rcases hf : fuel with _ | f
      · omega
      rw [mergeLoop_step0 st f s0 s1 rest hA hadj01]
      -- the state after the merge step
      have hst2 : (slotDelete (slotSetEnd st s0.id s1.end_date s0.is_available)
          s1.id).slots = { s0 with end_date := s1.end_date } :: rest := by
        rw [slotDelete_slots, slotSetEnd_slots, hsl]
        exact mergeRows s0 s1 rest s1.end_date (fun hcon => h01 hcon) h0r' h1r'
      -- hypotheses of the induction step
      have hav2 : ∀ s ∈ ({ s0 with end_date := s1.end_date } :: rest), s.is_available = true := by
        intro s hs
        rcases List.mem_cons.mp hs with rfl | hs'
        · simpa using hav s0 (by simp)
        · exact hav s (by simp [hs'])
      have hch2 : List.Chain' (fun a b => a.end_date + 1 = b.start_date)
          ({ s0 with end_date := s1.end_date } :: rest) := by
        rw [List.chain'_cons']
        exact ⟨fun y hy => by simpa using hhead1 y hy, hchrest⟩
      have hsort2 : List.Pairwise (fun a b : Slot => a.start_date ≤ b.start_date)
          ({ s0 with end_date := s1.end_date } :: rest) := by
        rw [List.pairwise_cons]
        exact ⟨fun y hy => by simpa using h0all y (by simp [hy]), hsortrest⟩
      have hnd2 : (({ s0 with end_date := s1.end_date } :: rest).map (·.id)).Nodup := by
        simp only [List.map_cons, List.nodup_cons, List.mem_map, not_exists, not_and]
        exact ⟨fun r hr => by simpa using fun hcon => h0r r hr hcon, hndr⟩
      rcases hrest : rest with _ | ⟨r, t⟩
      · -- the chain had exactly two slots
        subst hrest
        simp only [List.length_nil] at hlen
        obtain rfl : s1 = lst := by simpa using hlst
        have hres := IH 1 (by omega)
          (slotDelete (slotSetEnd st s0.id s1.end_date s0.is_available) s1.id) f
          { s0 with end_date := s1.end_date } { s0 with end_date := s1.end_date }
          (by rw [hst2]; rfl) (by rw [hst2]; rfl) (by rw [hst2]; rfl)
          (by rw [hst2]; exact hav2) (by rw [hst2]; exact hch2)
          (by rw [hst2]; exact hsort2) (by rw [hst2]; exact hnd2) (by omega)
        rw [hres]
      · -- three or more slots
        subst hrest
        simp only [List.length_cons] at hlen
        have hlst2 : ({ s0 with end_date := s1.end_date } :: r :: t).getLast? = some lst := by
          rw [List.getLast?_cons_cons]
          rw [List.getLast?_cons_cons, List.getLast?_cons_cons] at hlst
          exact hlst
        have hres := IH (t.length + 2) (by omega)
          (slotDelete (slotSetEnd st s0.id s1.end_date s0.is_available) s1.id) f
          { s0 with end_date := s1.end_date } lst
          (by rw [hst2]; simp) (by rw [hst2]; rfl) (by rw [hst2]; exact hlst2)
          (by rw [hst2]; exact hav2) (by rw [hst2]; exact hch2)
          (by rw [hst2]; exact hsort2) (by rw [hst2]; exact hnd2) (by omega)
        rw [hres]

/-- Along a day-adjacent chain of well-formed ranges, every end date is at
most the last slot's end date. -/
theorem chain_end_le_getLast : ∀ (l : List Slot) (lst : Slot),
    l.getLast? = some lst →
    List.Chain' (fun a b => a.end_date + 1 = b.start_date) l →
    (∀ s ∈ l, s.start_date ≤ s.end_date) →
    ∀ s ∈ l, s.end_date ≤ lst.end_date := by
  intro l
  induction l with
  | nil => intro lst h; cases h
  | cons a tail IH =>
    intro lst hlst hch hwf s hs
    rcases tail with _ | ⟨b, t⟩
    · obtain rfl : a = lst := by simpa using hlst
      obtain rfl : s = a := by simpa using hs
      exact le_refl _
    · have hlst' : (b :: t).getLast? = some lst :=
        List.getLast?_cons_cons ▸ hlst
      obtain ⟨hab, hch'⟩ := List.chain'_cons.mp hch
      have hIH := IH lst hlst' hch' (fun x hx => hwf x (by simp [hx]))
      rcases List.mem_cons.mp hs with rfl | hs'
      · have hb := hIH b (by simp)
        have hwfb := hwf b (by simp)
        omega
      · exact hIH s hs'

/-- C2: `merge_adjacent_slots` collapses a pairwise-adjacent chain of
available slots into the single available slot spanning the minimum start
date to the maximum end date; it leaves slot sets with a one-day-or-more
gap unchanged; and it leaves overlapping (non-adjacent) available slots
unchanged. -/
theorem C2_merge_adjacent_slots :
    (∀ (st : St) (hd lst : Slot),
      st.slots.head? = some hd →
      st.slots.getLast? = some lst →
      (∀ s ∈ st.slots, s.is_available = true) →
      (∀ s ∈ st.slots, s.start_date ≤ s.end_date) →
      List.Chain' (fun a b => a.end_date + 1 = b.start_date) st.slots →
      List.Pairwise (fun a b : Slot => a.start_date ≤ b.start_date) st.slots →
      (st.slots.map (·.id)).Nodup →
      (merge_adjacent_slots st).slots = [⟨hd.id, hd.start_date, lst.end_date, true⟩] ∧
      (∀ s ∈ st.slots, hd.start_date ≤ s.start_date ∧ s.end_date ≤ lst.end_date)) ∧
    (∀ st : St,
      (∀ s ∈ st.slots, s.is_available = true) →
      List.Pairwise (fun a b : Slot => a.start_date ≤ b.start_date) st.slots →
      List.Chain' (fun a b => a.end_date + 2 ≤ b.start_date) st.slots →
      merge_adjacent_slots st = st) ∧
    (∀ st : St,
      (∀ s ∈ st.slots, s.is_available = true) →
      List.Pairwise (fun a b : Slot => a.start_date ≤ b.start_date) st.slots →
      List.Chain' (fun a b => b.start_date ≤ a.end_date) st.slots →
      merge_adjacent_slots st = st) := by
  refine ⟨?partA, ?partB, ?partC⟩
  case partA =>
    intro st hd lst hhd hlst hav hwf hch hsort hnd
    have hA : availSorted st.slots = st.slots := availSorted_eq_self st.slots hav hsort
    have hspan : ∀ s ∈ st.slots, hd.start_date ≤ s.start_date ∧ s.end_date ≤ lst.end_date := by
      intro s hs
      constructor
      · rcases hsl : st.slots with _ | ⟨a, tail⟩
        · rw [hsl] at hs; cases hs
        · rw [hsl] at hhd hs hsort
          obtain rfl : a = hd := by simpa using hhd
          rcases List.mem_cons.mp hs with rfl | hs'
          · exact le_refl _
          · exact (List.pairwise_cons.mp hsort).1 s hs'
      · exact chain_end_le_getLast st.slots lst hlst hch hwf s hs
    refine ⟨?_, hspan⟩
    unfold merge_adjacent_slots
    rw [hA]
    by_cases hlen1 : st.slots.length ≤ 1
    · rw [if_pos hlen1]
      rcases hsl : st.slots with _ | ⟨a, _ | ⟨b, t⟩⟩
      · rw [hsl] at hhd; cases hhd
      · rw [hsl] at hhd hlst hav
        obtain rfl : a = hd := by simpa using hhd
        obtain rfl : a = lst := by simpa using hlst
        have ha : a = ⟨a.id, a.start_date, a.end_date, true⟩ := by
          conv_lhs =>
            rw [show a = (⟨a.id, a.start_date, a.end_date, a.is_available⟩ : Slot) from rfl]
          rw [hav a (by simp)]
        exact congrArg (fun z => [z]) ha
      · rw [hsl] at hlen1; simp at hlen1
    · rw [if_neg hlen1]
      exact mergeLoop_chain st.slots.length st (2 * st.slots.length) hd lst rfl
        hhd hlst hav hch hsort hnd (le_refl _)
  case partB =>
    intro st hav hsort hch
    have hA : availSorted st.slots = st.slots := availSorted_eq_self st.slots hav hsort
    unfold merge_adjacent_slots
    rw [hA]
    by_cases hlen1 : st.slots.length ≤ 1
    · rw [if_pos hlen1]
    · rw [if_neg hlen1]
      exact mergeLoop_no_adjacent _ st 0
        (by rw [hA]; exact hch.imp (fun a b h => by omega))
  case partC =>
    intro st hav hsort hch
    have hA : availSorted st.slots = st.slots := availSorted_eq_self st.slots hav hsort
    unfold merge_adjacent_slots
    rw [hA]
    by_cases hlen1 : st.slots.length ≤ 1
    · rw [if_pos hlen1]
    · rw [if_neg hlen1]
      exact mergeLoop_no_adjacent _ st 0
        (by rw [hA]; exact hch.imp (fun a b h => by omega))

/-- Concrete two-slot adjacent chain for the C2 witness. -/
def stC2a : St := ⟨true, 1, [1], [⟨1, 0, 9, true⟩, ⟨2, 10, 19, true⟩], [], 50⟩

/-- Concrete gapped pair for the C2 witness. -/
def stC2b : St := ⟨true, 1, [1], [⟨1, 0, 9, true⟩, ⟨2, 11, 20, true⟩], [], 50⟩

/-- Concrete overlapping pair for the C2 witness. -/
def stC2c : St := ⟨true, 1, [1], [⟨1, 0, 10, true⟩, ⟨2, 5, 20, true⟩], [], 50⟩

/-- Witness for C2: the adjacent pair merges into `[0, 19]`; the gapped and
the overlapping pairs are left unchanged. -/
theorem C2_merge_adjacent_slots_witness :
    (merge_adjacent_slots stC2a).slots = [⟨1, 0, 19, true⟩] ∧
    merge_adjacent_slots stC2b = stC2b ∧
    merge_adjacent_slots stC2c = stC2c := by
  refine ⟨?_, ?_, ?_⟩
  · exact (C2_merge_adjacent_slots.1 stC2a ⟨1, 0, 9, true⟩ ⟨2, 10, 19, true⟩
      rfl rfl (by decide) (by decide)
      (List.chain'_cons.mpr ⟨by norm_num, List.chain'_singleton _⟩)
      (by decide) (by decide)).1
  · exact C2_merge_adjacent_slots.2.1 stC2b (by decide) (by decide)
      (List.chain'_cons.mpr ⟨by norm_num, List.chain'_singleton _⟩)
  · exact C2_merge_adjacent_slots.2.2 stC2c (by decide) (by decide)
      (List.chain'_cons.mpr ⟨by norm_num, List.chain'_singleton _⟩)

/-- A map that fixes every unavailable slot and preserves availability
leaves the unavailable rows untouched. -/
theorem filter_unavail_map (f : Slot → Slot) (l : List Slot)
    (hfix : ∀ s ∈ l, s.is_available = false → f s = s)
    (hpres : ∀ s, (f s).is_available = s.is_available) :
    (l.map f).filter (fun s => !s.is_available) = l.filter (fun s => !s.is_available) := by
  induction l with
  | nil => rfl
  | cons a t IH =>
    have ht := IH (fun s hs => hfix s (by simp [hs]))
    rcases ha : a.is_available with _ | _
    · simp only [List.map_cons, List.filter_cons, hfix a (by simp) ha, ha]
      simp [ht]
    · simp only [List.map_cons, List.filter_cons, hpres, ha]
      simp [ht]

/-- Deleting a row whose id no unavailable slot carries leaves the
unavailable rows untouched. -/
theorem filter_unavail_delete (l : List Slot) (n : Nat)
    (hne : ∀ s ∈ l, s.is_available = false → s.id ≠ n) :
    (l.filter (fun s => s.id ≠ n)).filter (fun s => !s.is_available) =
      l.filter (fun s => !s.is_available) := by
  induction l with
  | nil => rfl
  | cons a t IH =>
    have ht := IH (fun s hs => hne s (by simp [hs]))
    rcases ha : a.is_available with _ | _
    · rw [List.filter_cons, if_pos (by simpa using hne a (by simp) ha)]
      rw [List.filter_cons, if_pos (by simp [ha])]
      rw [List.filter_cons, if_pos (by simp [ha])]
      rw [ht]
    · by_cases hid : a.id = n
      · rw [List.filter_cons, if_neg (by simp [hid])]
        rw [List.filter_cons, if_neg (by simp [ha])]
        exact ht
      · rw [List.filter_cons, if_pos (by simpa using hid)]
        rw [List.filter_cons, if_neg (by simp [ha])]
        rw [List.filter_cons, if_neg (by simp [ha])]
        exact ht

/-- Membership in the sorted available view. -/
theorem availSorted_mem {slots : List Slot} {s : Slot} (h : s ∈ availSorted slots) :
    s ∈ slots ∧ s.is_available = true := by
  have h' : s ∈ slots.filter (·.is_available) := by
    simpa [availSorted] using (List.mem_insertionSort _).mp h
  exact ⟨(List.mem_filter.mp h').1, by simpa using (List.mem_filter.mp h').2⟩

/-- One merge step touches only the two available rows involved: the
unavailable rows survive unchanged and the row ids stay distinct. -/
theorem mergeStep_state_frame (st : St) (c nxt : Slot)
    (hcm : c ∈ st.slots) (hca : c.is_available = true)
    (hnm : nxt ∈ st.slots) (hna : nxt.is_available = true)
    (hnd : (st.slots.map (·.id)).Nodup) (e : Int) (av : Bool) :
    ((slotDelete (slotSetEnd st c.id e av) nxt.id).slots.filter (fun s => !s.is_available) =
      st.slots.filter (fun s => !s.is_available)) ∧
    ((slotDelete (slotSetEnd st c.id e av) nxt.id).slots.map (·.id)).Nodup := by
  have hinj := List.inj_on_of_nodup_map hnd
  set f : Slot → Slot := fun s => if s.id = c.id then { s with end_date := e } else s with hf
  have hpres : ∀ x, (f x).is_available = x.is_available := by
    intro x; simp only [hf]; split <;> rfl
  have hid : ∀ x : Slot, (f x).id = x.id := by
    intro x; simp only [hf]; split <;> rfl
  have hfix : ∀ x ∈ st.slots, x.is_available = false → f x = x := by
    intro x hx hxav
    simp only [hf]
    rw [if_neg]
    intro hcon
    have : x = c := hinj hx hcm hcon
    rw [this] at hxav
    rw [hca] at hxav
    cases hxav
  constructor
  · rw [slotDelete_slots, slotSetEnd_slots, ← hf]
    rw [filter_unavail_delete _ _ ?hne]
    · exact filter_unavail_map f st.slots hfix hpres
    case hne =>
      intro s hs hsav
      obtain ⟨x, hx, rfl⟩ := List.mem_map.mp hs
      rw [hid]
      intro hcon
      have : x = nxt := hinj hx hnm hcon
      rw [this] at hsav
      rw [hpres, hna] at hsav
      cases hsav
  · rw [slotDelete_slots, slotSetEnd_slots, ← hf]
    have hsub : (((st.slots.map f).filter (fun s => s.id ≠ nxt.id)).map (·.id)).Sublist
        ((st.slots.map f).map (·.id)) :=
      (List.filter_sublist _).map _
    have heq : (st.slots.map f).map (·.id) = st.slots.map (·.id) := by
      rw [List.map_map]
      exact List.map_congr_left (fun x _ => hid x)
    rw [heq] at hsub
    exact hnd.sublist hsub

/-- The merge loop preserves the unavailable rows verbatim. -/
theorem mergeLoop_unavail_frame (fuel : Nat) : ∀ (st : St) (i : Nat),
    (st.slots.map (·.id)).Nodup →
    (mergeLoop st fuel i).slots.filter (fun s => !s.is_available) =
      st.slots.filter (fun s => !s.is_available) := by
  induction fuel with
  | zero => intro st i _; rfl
  | succ f IH =>
    intro st i hnd
    rw [mergeLoop_succ]
    split
    · next hc =>
      dsimp only
      split
      · next hadj =>
        obtain ⟨hcm, hca⟩ := availSorted_mem (List.get_mem (availSorted st.slots) i _)
        obtain ⟨hnm, hna⟩ := availSorted_mem (List.get_mem (availSorted st.slots) (i + 1) hc)
        have hstep := mergeStep_state_frame st _ _ hcm hca hnm hna hnd
          ((availSorted st.slots).get ⟨i + 1, hc⟩).end_date
          ((availSorted st.slots).get ⟨i, Nat.lt_of_succ_lt hc⟩).is_available
        rw [IH _ i hstep.2, hstep.1]
      · next hadj => exact IH st (i + 1) hnd
    · rfl

/-- C8: slots flagged unavailable are preserved: `merge_adjacent_slots`
leaves the unavailable rows verbatim, and `split_slot` only creates
available residuals, keeps every pre-existing row, and leaves the
unavailable rows verbatim. -/
theorem C8_unavailable_slots_preserved :
    (∀ st : St, (st.slots.map (·.id)).Nodup →
      (merge_adjacent_slots st).slots.filter (fun s => !s.is_available) =
        st.slots.filter (fun s => !s.is_available)) ∧
    (∀ (st : St) (slot : Slot) (rf rt : Int),
      ((split_slot st slot rf rt).1.slots.filter (fun s => !s.is_available) =
        st.slots.filter (fun s => !s.is_available)) ∧
      (∀ b, (split_slot st slot rf rt).2.1 = some b → b.is_available = true) ∧
      (∀ a, (split_slot st slot rf rt).2.2 = some a → a.is_available = true) ∧
      (∀ s ∈ st.slots, s ∈ (split_slot st slot rf rt).1.slots)) := by
  constructor
  · intro st hnd
    unfold merge_adjacent_slots
    by_cases hlen1 : (availSorted st.slots).length ≤ 1
    · rw [if_pos hlen1]
    · rw [if_neg hlen1]
      exact mergeLoop_unavail_frame _ st 0 hnd
  · intro st slot rf rt
    by_cases hb : rf > slot.start_date <;> by_cases ha : rt < slot.end_date <;>
      simp [split_slot, slotCreate, update_slots_frame, hb, ha,
        List.filter_append, List.mem_append] <;>
      intro s hs <;> simp [hs]

/-- State with an unavailable slot `[30, 40]` for the C8 witness. -/
def stC8 : St := ⟨true, 1, [1], [⟨1, 0, 9, true⟩, ⟨2, 10, 19, true⟩, ⟨3, 30, 40, false⟩], [], 50⟩

/-- Witness for C8 on `stC8`: the unavailable row survives both a merge and
a split. -/
theorem C8_unavailable_slots_preserved_witness :
    ((merge_adjacent_slots stC8).slots.filter (fun s => !s.is_available) =
      stC8.slots.filter (fun s => !s.is_available)) ∧
    ((split_slot stC8 ⟨1, 0, 9, true⟩ 3 5).1.slots.filter (fun s => !s.is_available) =
      stC8.slots.filter (fun s => !s.is_available)) :=
  ⟨C8_unavailable_slots_preserved.1 stC8 (by decide),
   (C8_unavailable_slots_preserved.2 stC8 ⟨1, 0, 9, true⟩ 3 5).1⟩

/-- The id handed to a created slot and the bumped autoincrement counter. -/
theorem slotCreate_snd (st : St) (s e : Int) (av : Bool) :
    (slotCreate st s e av).2 = ⟨st.nextId, s, e, av⟩ := by
  unfold slotCreate; split <;> rfl

/-- Creating a slot bumps the autoincrement counter. -/
theorem slotCreate_nextId (st : St) (s e : Int) (av : Bool) :
    (slotCreate st s e av).1.nextId = st.nextId + 1 := by
  unfold slotCreate; split
  · rw [(update_fields_frame _).1]
  · rfl

/-- Deleting a slot does not touch the autoincrement counter. -/
theorem slotDelete_nextId (st : St) (sid : Nat) :
    (slotDelete st sid).nextId = st.nextId := by
  simp [slotDelete, (update_fields_frame _).1]

/-- When the reservation is strictly inside the slot, `split_slot` creates
both residuals: `[slot.start, rf - 1]` (fresh id) and `[rt + 1, slot.end]`
(next fresh id). -/
theorem split_slot_both (st : St) (slot : Slot) (rf rt : Int)
    (hb : slot.start_date < rf) (ha : rt < slot.end_date) :
    (split_slot st slot rf rt).2.1 = some ⟨st.nextId, slot.start_date, rf - 1, true⟩ ∧
    (split_slot st slot rf rt).2.2 = some ⟨st.nextId + 1, rt + 1, slot.end_date, true⟩ ∧
    (split_slot st slot rf rt).1.slots =
      st.slots ++ [⟨st.nextId, slot.start_date, rf - 1, true⟩] ++
        [⟨st.nextId + 1, rt + 1, slot.end_date, true⟩] ∧
    (split_slot st slot rf rt).1.nextId = st.nextId + 2 := by
  have h : split_slot st slot rf rt =
      ((slotCreate (slotCreate st slot.start_date (rf - 1) true).1
          (rt + 1) slot.end_date true).1,
        some (slotCreate st slot.start_date (rf - 1) true).2,
        some (slotCreate (slotCreate st slot.start_date (rf - 1) true).1
          (rt + 1) slot.end_date true).2) := by
    unfold split_slot
    dsimp only
    rw [if_pos hb, if_pos ha]
  rw [h]
  refine ⟨by dsimp only; rw [slotCreate_snd],
    by dsimp only; rw [slotCreate_snd, slotCreate_nextId], ?_, ?_⟩
  · dsimp only
    rw [slotCreate_slots, slotCreate_slots, slotCreate_nextId, List.append_assoc]
  · dsimp only
    rw [slotCreate_nextId, slotCreate_nextId]

/-- C3: round trip.  From a lone available slot `[D, D+29]`, reserving the
full interior `[D+10, D+19]` splits off the residuals `[D, D+9]` and
`[D+20, D+29]` and deletes the original; cancelling the reservation inserts
`[D+10, D+19]` back and the merge pass leaves exactly one available slot
`[D, D+29]` again. -/
theorem C3_round_trip (D : Int) (st : St) (sid rid : Nat)
    (hsl : st.slots = [⟨sid, D, D + 29, true⟩])
    (hfresh : sid < st.nextId) :
    (split_slot st ⟨sid, D, D + 29, true⟩ (D + 10) (D + 19)).2.1 =
        some ⟨st.nextId, D, D + 9, true⟩ ∧
    (split_slot st ⟨sid, D, D + 29, true⟩ (D + 10) (D + 19)).2.2 =
        some ⟨st.nextId + 1, D + 20, D + 29, true⟩ ∧
    (slotDelete (split_slot st ⟨sid, D, D + 29, true⟩ (D + 10) (D + 19)).1 sid).slots =
        [⟨st.nextId, D, D + 9, true⟩, ⟨st.nextId + 1, D + 20, D + 29, true⟩] ∧
    (Reservation.cancel
        (slotDelete (split_slot st ⟨sid, D, D + 29, true⟩ (D + 10) (D + 19)).1 sid)
        ⟨rid, D + 10, D + 19, RStatus.PENDING⟩).2.2 = true ∧
    (Reservation.cancel
        (slotDelete (split_slot st ⟨sid, D, D + 29, true⟩ (D + 10) (D + 19)).1 sid)
        ⟨rid, D + 10, D + 19, RStatus.PENDING⟩).1.slots =
        [⟨st.nextId, D, D + 29, true⟩] := by
  obtain ⟨hB, hA', hS, hN⟩ :=
    split_slot_both st ⟨sid, D, D + 29, true⟩ (D + 10) (D + 19)
      (by show D < D + 10; omega) (by show D + 19 < D + 29; omega)
  have e1 : D + 10 - 1 = D + 9 := by ring
  have e2 : D + 19 + 1 = D + 20 := by ring
  rw [e1] at hB hS
  rw [e2] at hA' hS
  refine ⟨hB, hA', ?_⟩
  -- the deleted-original state
  have hD1 : (slotDelete (split_slot st ⟨sid, D, D + 29, true⟩ (D + 10) (D + 19)).1
      sid).slots =
      [⟨st.nextId, D, D + 9, true⟩, ⟨st.nextId + 1, D + 20, D + 29, true⟩] := by
    rw [slotDelete_slots, hS, hsl]
    simp only [List.filter_append, List.filter_cons, List.filter_nil]
    norm_num
    rw [if_neg (by omega), if_neg (by omega)]
    rfl
  have hN1 : (slotDelete (split_slot st ⟨sid, D, D + 29, true⟩ (D + 10) (D + 19)).1
      sid).nextId = st.nextId + 2 := by
    rw [slotDelete_nextId, hN]
  refine ⟨hD1, ?_⟩
  -- cancel takes the PENDING branch
  have hcancel : Reservation.cancel
      (slotDelete (split_slot st ⟨sid, D, D + 29, true⟩ (D + 10) (D + 19)).1 sid)
      ⟨rid, D + 10, D + 19, RStatus.PENDING⟩ =
      (merge_adjacent_slots
        (slotCreate (slotDelete (split_slot st ⟨sid, D, D + 29, true⟩ (D + 10) (D + 19)).1
          sid) (D + 10) (D + 19) true).1,
       ⟨rid, D + 10, D + 19, RStatus.CANCELLED⟩, true) := by
    simp [Reservation.cancel, Reservation.is_cancelled, Reservation.can_be_cancelled]
  rw [hcancel]
  refine ⟨rfl, ?_⟩
  -- the state holding the two residuals plus the restored middle slot
  have hMslots : (slotCreate (slotDelete (split_slot st ⟨sid, D, D + 29, true⟩
      (D + 10) (D + 19)).1 sid) (D + 10) (D + 19) true).1.slots =
      [⟨st.nextId, D, D + 9, true⟩, ⟨st.nextId + 1, D + 20, D + 29, true⟩,
       ⟨st.nextId + 2, D + 10, D + 19, true⟩] := by
    rw [slotCreate_slots, hD1, hN1]
    rfl
  -- its sorted available view
  have hMA : availSorted (slotCreate (slotDelete (split_slot st ⟨sid, D, D + 29, true⟩
      (D + 10) (D + 19)).1 sid) (D + 10) (D + 19) true).1.slots =
      [⟨st.nextId, D, D + 9, true⟩, ⟨st.nextId + 2, D + 10, D + 19, true⟩,
       ⟨st.nextId + 1, D + 20, D + 29, true⟩] := by
    rw [hMslots]
    simp only [availSorted, List.filter_cons, List.filter_nil, List.insertionSort,
      List.orderedInsert]
    norm_num
  -- first merge step: [D, D+9] absorbs [D+10, D+19]
  set stM := (slotCreate (slotDelete (split_slot st ⟨sid, D, D + 29, true⟩
      (D + 10) (D + 19)).1 sid) (D + 10) (D + 19) true).1 with hstM
  have hmerge : merge_adjacent_slots stM = mergeLoop stM 6 0 := by
    unfold merge_adjacent_slots
    rw [hMA]
    norm_num
  rw [hmerge, show (6 : Nat) = 5 + 1 from rfl,
    mergeLoop_step0 stM 5 ⟨st.nextId, D, D + 9, true⟩ ⟨st.nextId + 2, D + 10, D + 19, true⟩
      [⟨st.nextId + 1, D + 20, D + 29, true⟩] hMA (by show D + 9 + 1 = D + 10; ring)]
  set stM2 := slotDelete
    (slotSetEnd stM (⟨st.nextId, D, D + 9, true⟩ : Slot).id
      (⟨st.nextId + 2, D + 10, D + 19, true⟩ : Slot).end_date
      (⟨st.nextId, D, D + 9, true⟩ : Slot).is_available)
    (⟨st.nextId + 2, D + 10, D + 19, true⟩ : Slot).id with hstM2
  have hM2slots : stM2.slots =
      [⟨st.nextId, D, D + 19, true⟩, ⟨st.nextId + 1, D + 20, D + 29, true⟩] := by
    rw [hstM2, slotDelete_slots, slotSetEnd_slots, hMslots]
    simp only [List.map_cons, List.map_nil, List.filter_cons, List.filter_nil]
    norm_num
  have hM2A : availSorted stM2.slots =
      [⟨st.nextId, D, D + 19, true⟩, ⟨st.nextId + 1, D + 20, D + 29, true⟩] := by
    rw [hM2slots]
    simp only [availSorted, List.filter_cons, List.filter_nil, List.insertionSort,
      List.orderedInsert]
    norm_num
  rw [show (5 : Nat) = 4 + 1 from rfl,
    mergeLoop_step0 stM2 4 ⟨st.nextId, D, D + 19, true⟩ ⟨st.nextId + 1, D + 20, D + 29, true⟩
      [] hM2A (by show D + 19 + 1 = D + 20; ring)]
  set stM3 := slotDelete
    (slotSetEnd stM2 (⟨st.nextId, D, D + 19, true⟩ : Slot).id
      (⟨st.nextId + 1, D + 20, D + 29, true⟩ : Slot).end_date
      (⟨st.nextId, D, D + 19, true⟩ : Slot).is_available)
    (⟨st.nextId + 1, D + 20, D + 29, true⟩ : Slot).id with hstM3
  have hM3slots : stM3.slots = [⟨st.nextId, D, D + 29, true⟩] := by
    rw [hstM3, slotDelete_slots, slotSetEnd_slots, hM2slots]
    simp only [List.map_cons, List.map_nil, List.filter_cons, List.filter_nil]
    norm_num
  have hM3A : availSorted stM3.slots = [⟨st.nextId, D, D + 29, true⟩] := by
    rw [hM3slots]
    simp [availSorted]
  rw [show (4 : Nat) = 3 + 1 from rfl, mergeLoop_succ, hM3A, dif_neg (by simp)]
  exact hM3slots

/-- Witness for C3 on `stW` (slot `[0, 29]`, `D = 0`): after reserving
`[10, 19]` and cancelling, exactly the single available slot `[0, 29]`
remains. -/
theorem C3_round_trip_witness :
    (Reservation.cancel
        (slotDelete (split_slot stW ⟨7, 0, 0 + 29, true⟩ (0 + 10) (0 + 19)).1 7)
        ⟨3, 0 + 10, 0 + 19, RStatus.PENDING⟩).1.slots =
      [⟨stW.nextId, 0, 0 + 29, true⟩] ∧
    (Reservation.cancel
        (slotDelete (split_slot stW ⟨7, 0, 0 + 29, true⟩ (0 + 10) (0 + 19)).1 7)
        ⟨3, 0 + 10, 0 + 19, RStatus.PENDING⟩).2.2 = true := by
  have h := C3_round_trip 0 stW 7 3 (by decide) (by decide)
  exact ⟨h.2.2.2.2, h.2.2.2.1⟩
